/-
Verification of `examples/csv_writer.py`: a fixed-rate CSV sampler that
appends `index,timestamp_micros,sine,cosine` records to a log file.

The Python source is shallowly embedded below:
* number formatting (`f"{n}"`, `f"{ts}"`, `f"{x:.9f}"`) is modelled on
  ℕ / ℤ / ℚ (a finite IEEE double is a rational, and C `printf`-style
  `%.9f` rounding of that rational is round-half-even at 9 fractional
  digits);
* the 64-bit index counter `n = (n + 1) & 0xFFFFFFFFFFFFFFFF` on ℕ;
* the deadline arithmetic `next_t += DT_S` and the busy-wait loop
  (`while True: now = perf_counter(); if now >= next_t: break;
  sleep(0.0002)`) with an explicit clock-reading sequence and fuel;
* the process lifecycle (exists-check, open, header, per-record
  write+flush, `finally: flush(); close()`) as a trace of I/O events,
  parametrised by the environment: the wall-clock timestamps, the
  floating-point sine/cosine values actually computed (arbitrary
  rationals), and the termination cause (KeyboardInterrupt after k
  records, a failing write call, or a failing initial open).
-/
import Mathlib

namespace CsvWriter

/-! ### Decimal formatting, as produced by Python f-strings -/

/-- The character for a single decimal digit `d < 10`. -/
def digitChar (d : ℕ) : Char := Char.ofNat (48 + d)

/-- Decimal digits of a natural number, most significant first:
the model of Python's `f"{n}"` for a non-negative `int`. -/
def natDigits (n : ℕ) : List Char :=
  if _h : n < 10 then [digitChar n]
  else natDigits (n / 10) ++ [digitChar (n % 10)]
termination_by n
decreasing_by
  exact Nat.div_lt_self (by omega) (by omega)

/-- Python's `f"{i}"` for an `int`: a minus sign iff negative, then
the decimal digits of the magnitude. -/
def intDec (i : ℤ) : List Char :=
  (if i < 0 then ['-'] else []) ++ natDigits i.natAbs

/-- Round a rational to the nearest integer, ties to even: the rounding
C's `%f` (hence Python's `:.9f` format spec) applies to the exact value. -/
def roundHalfEven (q : ℚ) : ℤ :=
  let f := ⌊q⌋
  if q - f < 1/2 then f
  else if 1/2 < q - f then f + 1
  else if f % 2 = 0 then f else f + 1

/-- Pad the decimal digits of `f` on the left with zeros to width 9
(the fractional part of a `:.9f` rendering, `f < 10^9`). -/
def pad9 (f : ℕ) : List Char :=
  List.replicate (9 - (natDigits f).length) '0' ++ natDigits f

/-- Python's `f"{x:.9f}"` on the exact rational value `x` of a finite
double: sign iff `x < 0`, then the magnitude rounded to 9 fractional
digits in fixed-point notation (never scientific). -/
def fmtFixed9 (x : ℚ) : List Char :=
  let m := (roundHalfEven (|x| * 10 ^ 9)).toNat
  (if x < 0 then ['-'] else []) ++
    natDigits (m / 10 ^ 9) ++ '.' :: pad9 (m % 10 ^ 9)

/-- The body (without the trailing newline) of one data line,
`f"{n},{ts},{s:.9f},{c:.9f}"`. -/
def dataLineBody (n : ℕ) (ts : ℤ) (s c : ℚ) : List Char :=
  natDigits n ++ ',' :: intDec ts ++ ',' :: fmtFixed9 s ++ ',' :: fmtFixed9 c

/-- One full data line as written by `f.write(f"{n},{ts},{s:.9f},{c:.9f}\n")`. -/
def dataLine (n : ℕ) (ts : ℤ) (s c : ℚ) : List Char :=
  dataLineBody n ts s c ++ ['\n']

/-! ### A checker for the pattern `^-?\d+,\d+,-?\d+\.\d{9},-?\d+\.\d{9}$` -/

/-- Consume a leading `'-'` if present (`-?`). -/
def optDash (l : List Char) : List Char :=
  match l with
  | c :: cs => if c = '-' then cs else c :: cs
  | [] => []

/-- Drop a maximal run of leading decimal digits. -/
def dropDigits (l : List Char) : List Char :=
  match l with
  | [] => []
  | c :: cs => if c.isDigit then dropDigits cs else c :: cs

/-- Consume `\d+`: at least one digit, then maximally many. -/
def expectDigitsPlus (l : List Char) : Option (List Char) :=
  match l with
  | c :: cs => if c.isDigit then some (dropDigits cs) else none
  | [] => none

/-- Consume one expected literal character. -/
def expectChar (ch : Char) (l : List Char) : Option (List Char) :=
  match l with
  | c :: cs => if c = ch then some cs else none
  | [] => none

/-- Consume exactly `k` decimal digits (`\d{k}`). -/
def expectDigitsN : ℕ → List Char → Option (List Char)
  | 0, l => some l
  | _ + 1, [] => none
  | k + 1, c :: cs => if c.isDigit then expectDigitsN k cs else none

/-- Decide whether `l` matches `^-?\d+,\d+,-?\d+\.\d{9},-?\d+\.\d{9}$`
(anchored at both ends; the regex is deterministic because `,`, `.` and
`-` are not digits, so greedy `\d+` agrees with backtracking). -/
def matchesC1 (l : List Char) : Bool :=
  match (((((((((( expectDigitsPlus (optDash l)).bind
      (expectChar ',')).bind
      expectDigitsPlus).bind
      (expectChar ',')).bind
      (fun l => expectDigitsPlus (optDash l))).bind
      (expectChar '.')).bind
      (expectDigitsN 9)).bind
      (expectChar ',')).bind
      (fun l => expectDigitsPlus (optDash l))).bind
      (expectChar '.')).bind
      (expectDigitsN 9) with
  | some [] => true
  | _ => false

/-! ### Lemmas about the decimal renderings -/

/-- Predicate: `l` is empty or does not start with a digit. -/
def headNotDigit : List Char → Prop
  | [] => True
  | c :: _ => c.isDigit = false

theorem digitChar_isDigit {d : ℕ} (h : d < 10) : (digitChar d).isDigit = true := by
  interval_cases d <;> decide

theorem digitChar_ne_dash {d : ℕ} (h : d < 10) : digitChar d ≠ '-' := by
  interval_cases d <;> decide

theorem natDigits_all_digit (n : ℕ) : ∀ c ∈ natDigits n, c.isDigit = true := by
  induction n using Nat.strong_induction_on with
  | _ n ih =>
    rw [natDigits]
    split
    · rename_i h
      intro c hc
      simp only [List.mem_singleton] at hc
      subst hc
      exact digitChar_isDigit h
    · rename_i h
      intro c hc
      rcases List.mem_append.1 hc with hm | hm
      · exact ih (n / 10) (Nat.div_lt_self (by omega) (by omega)) c hm
      · simp only [List.mem_singleton] at hm
        subst hm
        exact digitChar_isDigit (Nat.mod_lt _ (by omega))

theorem natDigits_ne_nil (n : ℕ) : natDigits n ≠ [] := by
  rw [natDigits]
  split
  · simp
  · simp

theorem natDigits_length_le (n k : ℕ) (hk : 1 ≤ k) (h : n < 10 ^ k) :
    (natDigits n).length ≤ k := by
  induction n using Nat.strong_induction_on generalizing k with
  | _ n ih =>
    rw [natDigits]
    split
    · simpa using hk
    · rename_i hn
      push_neg at hn
      have hk2 : 2 ≤ k := by
        rcases Nat.lt_or_ge k 2 with hlt | hge
        · interval_cases k
          · norm_num at h
            omega
        · exact hge
      have hdiv : n / 10 < 10 ^ (k - 1) := by
        rw [Nat.div_lt_iff_lt_mul (by omega : 0 < 10)]
        calc n < 10 ^ k := h
          _ = 10 ^ (k - 1) * 10 := by
            rw [← pow_succ]
            congr 1
            omega
      have hrec := ih (n / 10) (Nat.div_lt_self (by omega) (by omega)) (k - 1)
        (by omega) hdiv
      simp only [List.length_append, List.length_singleton]
      omega

theorem pad9_length {f : ℕ} (h : f < 10 ^ 9) : (pad9 f).length = 9 := by
  have := natDigits_length_le f 9 (by omega) h
  simp only [pad9, List.length_append, List.length_replicate]
  omega

theorem pad9_all_digit (f : ℕ) : ∀ c ∈ pad9 f, c.isDigit = true := by
  intro c hc
  rcases List.mem_append.1 hc with hm | hm
  · have := List.eq_of_mem_replicate hm
    subst this
    decide
  · exact natDigits_all_digit f c hm

/-! ### The matcher accepts exactly-shaped segments -/

theorem dropDigits_append (ds rest : List Char)
    (hd : ∀ c ∈ ds, c.isDigit = true) (hr : headNotDigit rest) :
    dropDigits (ds ++ rest) = rest := by
  induction ds with
  | nil =>
    cases rest with
    | nil => rfl
    | cons c cs =>
      simp only [List.nil_append, dropDigits]
      rw [if_neg]
      simp only [headNotDigit] at hr
      simp [hr]
  | cons d ds ih =>
    simp only [List.cons_append, dropDigits]
    rw [if_pos (hd d (List.mem_cons_self d ds))]
    exact ih fun c hc => hd c (List.mem_cons_of_mem d hc)

theorem expectDigitsPlus_append (ds rest : List Char) (hne : ds ≠ [])
    (hd : ∀ c ∈ ds, c.isDigit = true) (hr : headNotDigit rest) :
    expectDigitsPlus (ds ++ rest) = some rest := by
  cases ds with
  | nil => exact absurd rfl hne
  | cons d ds =>
    simp only [List.cons_append, expectDigitsPlus]
    rw [if_pos (hd d (List.mem_cons_self d ds))]
    rw [dropDigits_append ds rest (fun c hc => hd c (List.mem_cons_of_mem d hc)) hr]

theorem optDash_digits (ds rest : List Char) (hne : ds ≠ [])
    (hd : ∀ c ∈ ds, c.isDigit = true) :
    optDash (ds ++ rest) = ds ++ rest := by
  cases ds with
  | nil => exact absurd rfl hne
  | cons d ds =>
    simp only [List.cons_append, optDash]
    rw [if_neg]
    intro hc
    have := hd d (List.mem_cons_self d ds)
    rw [hc] at this
    simp at this

theorem expectDigitsN_append (p rest : List Char)
    (hd : ∀ c ∈ p, c.isDigit = true) :
    expectDigitsN p.length (p ++ rest) = some rest := by
  induction p with
  | nil => rfl
  | cons c cs ih =>
    simp only [List.length_cons, List.cons_append, expectDigitsN]
    rw [if_pos (hd c (List.mem_cons_self c cs))]
    exact ih fun x hx => hd x (List.mem_cons_of_mem c hx)

theorem expectChar_cons (ch : Char) (l : List Char) :
    expectChar ch (ch :: l) = some l := by
  simp [expectChar]

theorem headNotDigit_cons (l : List Char) {c : Char} (h : c.isDigit = false) :
    headNotDigit (c :: l) := h

theorem headNotDigit_nil : headNotDigit [] := trivial

theorem expectDigitsN9_append (p rest : List Char) (hlen : p.length = 9)
    (hd : ∀ c ∈ p, c.isDigit = true) :
    expectDigitsN 9 (p ++ rest) = some rest := by
  rw [← hlen]
  exact expectDigitsN_append p rest hd

theorem fixed9_segment (x : ℚ) (rest : List Char) :
    ((expectDigitsPlus (optDash (fmtFixed9 x ++ rest))).bind
      (expectChar '.')).bind (expectDigitsN 9) = some rest := by
  have hfp : (roundHalfEven (|x| * 10 ^ 9)).toNat % 10 ^ 9 < 10 ^ 9 :=
    Nat.mod_lt _ (by norm_num)
  have h1 : optDash (fmtFixed9 x ++ rest)
      = natDigits ((roundHalfEven (|x| * 10 ^ 9)).toNat / 10 ^ 9) ++
        '.' :: (pad9 ((roundHalfEven (|x| * 10 ^ 9)).toNat % 10 ^ 9) ++ rest) := by
    unfold fmtFixed9
    split
    · simp only [List.singleton_append, List.cons_append, List.append_assoc]
      simp [optDash]
    · simp only [List.nil_append, List.cons_append, List.append_assoc]
      exact optDash_digits _ _ (natDigits_ne_nil _) (natDigits_all_digit _)
  rw [h1, expectDigitsPlus_append _ _ (natDigits_ne_nil _) (natDigits_all_digit _)
    (headNotDigit_cons _ (by decide))]
  simp only [Option.some_bind]
  rw [expectChar_cons]
  simp only [Option.some_bind]
  exact expectDigitsN9_append _ _ (pad9_length hfp) (pad9_all_digit _)

/-- C1: every emitted data line is the comma-separated concatenation of the
index and timestamp as plain decimal integers and the sine/cosine as
fixed-point numbers with exactly 9 fractional digits, terminated by a single
`\n`; its body matches `^-?\d+,\d+,-?\d+\.\d{9},-?\d+\.\d{9}$`. -/
theorem data_line_format_exact (n : ℕ) (ts : ℤ) (hts : 0 ≤ ts) (s c : ℚ) :
    matchesC1 (dataLineBody n ts s c) = true ∧
    dataLine n ts s c = dataLineBody n ts s c ++ ['\n'] := by
  refine ⟨?_, rfl⟩
  unfold matchesC1
  have hb : dataLineBody n ts s c
      = natDigits n ++ ',' ::
        (natDigits ts.natAbs ++ ',' :: (fmtFixed9 s ++ ',' :: fmtFixed9 c)) := by
    unfold dataLineBody intDec
    rw [if_neg (not_lt.2 hts)]
    simp [List.append_assoc]
  rw [hb]
  rw [optDash_digits _ _ (natDigits_ne_nil n) (natDigits_all_digit n)]
  rw [expectDigitsPlus_append _ _ (natDigits_ne_nil n) (natDigits_all_digit n)
    (headNotDigit_cons _ (by decide))]
  simp only [Option.some_bind]
  rw [expectChar_cons]
  simp only [Option.some_bind]
  rw [expectDigitsPlus_append _ _ (natDigits_ne_nil _) (natDigits_all_digit _)
    (headNotDigit_cons _ (by decide))]
  simp only [Option.some_bind]
  rw [expectChar_cons]
  simp only [Option.some_bind]
  rw [fixed9_segment s (',' :: fmtFixed9 c)]
  simp only [Option.some_bind]
  rw [expectChar_cons]
  simp only [Option.some_bind]
  rw [show fmtFixed9 c = fmtFixed9 c ++ [] by simp]
  rw [fixed9_segment c []]

/-- Witness for C1 at the concrete record `n = 0`, `ts = 0`, `s = 0`, `c = 1`. -/
theorem data_line_format_exact_witness :
    matchesC1 (dataLineBody 0 0 0 1) = true ∧
    dataLine 0 0 0 1 = dataLineBody 0 0 0 1 ++ ['\n'] :=
  data_line_format_exact 0 0 (by decide) 0 1

/-! ### Constants and the 64-bit index counter -/

/-- The constant `FS_HZ = 1000.0` (exactly representable as a double). -/
def FS_HZ : ℚ := 1000

/-- The constant `DT_S = 1.0 / FS_HZ`, the nominal period. The double `1.0/1000.0`
differs from the exact rational by under `2^-60`; the scheduler is
modelled with the exact value. -/
def DT_S : ℚ := 1 / FS_HZ

/-- The constant `F_HZ = 3.0`, the waveform frequency. -/
def F_HZ : ℚ := 3

/-- The mask `0xFFFFFFFFFFFFFFFF` applied after each increment. -/
def UMASK : ℕ := 0xFFFFFFFFFFFFFFFF

/-- The step `n = (n + 1) & 0xFFFFFFFFFFFFFFFF`. -/
def nextIndex (n : ℕ) : ℕ := (n + 1) &&& UMASK

/-- The index of the k-th record of one run: `n = 0` before the loop,
stepped by `nextIndex` once per record, never reading the file. -/
def indexAt : ℕ → ℕ
  | 0 => 0
  | k + 1 => nextIndex (indexAt k)

/-- C3: within one run the k-th record's index equals `k` modulo `2^64`:
it starts at 0, increments by exactly 1 per record and wraps with no
overflow error, independent of any pre-existing file content (the counter
takes no input from the file). -/
theorem index_is_mod_2_64 (k : ℕ) : indexAt k = k % 2 ^ 64 := by
  induction k with
  | zero => simp [indexAt]
  | succ k ih =>
    have hmask : UMASK = 2 ^ 64 - 1 := by norm_num [UMASK]
    rw [indexAt, ih, nextIndex, hmask, Nat.and_pow_two_sub_one_eq_mod]
    omega

/-! ### The waveform: `t = n / FS_HZ`, `sin(2π·F_HZ·t)`, `cos(2π·F_HZ·t)` -/

/-- The value `s = math.sin(2.0 * math.pi * F_HZ * t)` with `t = n / FS_HZ`,
modelled with real-valued trigonometry (the double computed by `math.sin`
differs from the real value by ulp-scale error, far below the stated
`1e-6` tolerance). -/
noncomputable def sineVal (n : ℕ) : ℝ :=
  Real.sin (2 * Real.pi * (F_HZ : ℝ) * ((n : ℝ) / (FS_HZ : ℝ)))

/-- The value `c = math.cos(2.0 * math.pi * F_HZ * t)` with `t = n / FS_HZ`. -/
noncomputable def cosineVal (n : ℕ) : ℝ :=
  Real.cos (2 * Real.pi * (F_HZ : ℝ) * ((n : ℝ) / (FS_HZ : ℝ)))

/-- C4: the record with index `n` carries `sin(2π·3·n/1000)` and
`cos(2π·3·n/1000)` — the waveform is evaluated at the logical time
`t = n / 1000`, not at wall-clock time — and consequently
`sine² + cosine² = 1` within tolerance `1e-6`. -/
theorem waveform_logical_time (n : ℕ) :
    sineVal n = Real.sin (2 * Real.pi * 3 * ((n : ℝ) / 1000)) ∧
    cosineVal n = Real.cos (2 * Real.pi * 3 * ((n : ℝ) / 1000)) ∧
    |sineVal n ^ 2 + cosineVal n ^ 2 - 1| ≤ 1 / 1000000 := by
  refine ⟨by norm_num [sineVal, F_HZ, FS_HZ], by norm_num [cosineVal, F_HZ, FS_HZ], ?_⟩
  rw [sineVal, cosineVal, Real.sin_sq_add_cos_sq]
  norm_num

/-! ### The scheduler: deadline arithmetic and the busy-wait loop -/

/-- The deadline `next_t` after `k` firings, when the initial `perf_counter()` read was
`t0`: the loop does `next_t += DT_S` unconditionally after each record,
never `next_t = now + DT_S`. -/
def nextTAfter (t0 : ℚ) : ℕ → ℚ
  | 0 => t0
  | k + 1 => nextTAfter t0 k + DT_S

/-- The busy-wait `while True: now = time.perf_counter(); if now >= next_t:
break; time.sleep(0.0002)`. `clock j` is the reading returned by the j-th
`perf_counter()` call, `fuel` bounds the iterations modelled. Returns the
call index at which the loop exits, with the list of sleeps performed. -/
def waitEvents (clock : ℕ → ℚ) (nextT : ℚ) : ℕ → ℕ → Option (ℕ × List ℚ)
  | 0, _ => none
  | fuel + 1, j =>
    if nextT ≤ clock j then some (j, [])
    else
      match waitEvents clock nextT fuel (j + 1) with
      | some (j', ss) => some (j', (0.0002 : ℚ) :: ss)
      | none => none

/-- C6: the deadline after `k` records equals the initial monotonic reading
plus `k·(1/1000)`, each advance is by exactly `1/1000` unconditionally, and
a cycle whose deadline has already passed still fires (immediately, with no
sleeps) rather than being skipped. -/
theorem deadline_no_drift (t0 : ℚ) (k : ℕ) (clock : ℕ → ℚ) (j0 fuel : ℕ)
    (hfuel : 1 ≤ fuel) (hlate : nextTAfter t0 k ≤ clock j0) :
    nextTAfter t0 k = t0 + k * (1 / 1000) ∧
    nextTAfter t0 (k + 1) = nextTAfter t0 k + 1 / 1000 ∧
    waitEvents clock (nextTAfter t0 k) fuel j0 = some (j0, []) := by
  have hlin : ∀ m, nextTAfter t0 m = t0 + m * (1 / 1000) := by
    intro m
    induction m with
    | zero => simp [nextTAfter]
    | succ m ih =>
      rw [nextTAfter, ih, DT_S, FS_HZ]
      push_cast
      ring
  refine ⟨hlin k, by rw [hlin k, hlin (k + 1)]; push_cast; ring, ?_⟩
  rcases fuel with _ | fuel
  · omega
  · rw [waitEvents, if_pos hlate]

/-- Witness for C6 with `t0 = 0`, `k = 0`, the constant clock 0, one unit
of fuel. -/
theorem deadline_no_drift_witness :
    nextTAfter 0 0 = 0 + (0 : ℕ) * (1 / 1000) ∧
    nextTAfter 0 (0 + 1) = nextTAfter 0 0 + 1 / 1000 ∧
    waitEvents (fun _ => 0) (nextTAfter 0 0) 1 0 = some (0, []) :=
  deadline_no_drift 0 0 (fun _ => 0) 0 1 (by decide) (by decide)

/-- C7: if the busy-wait loop exits at clock call `j`, then the monotonic
clock has reached the deadline there (`nextT ≤ clock j`, so the write for
that deadline never happens before the clock reaches it), every earlier
check in the wait saw the clock strictly before the deadline, and one fixed
sleep of `0.0002` s was performed per unsuccessful check. -/
theorem busy_wait_exit (clock : ℕ → ℚ) (nextT : ℚ) (fuel j0 j : ℕ)
    (ss : List ℚ) (h : waitEvents clock nextT fuel j0 = some (j, ss)) :
    nextT ≤ clock j ∧ (∀ i, j0 ≤ i → i < j → clock i < nextT) ∧
    ss = List.replicate (j - j0) (0.0002 : ℚ) ∧ j0 ≤ j := by
  induction fuel generalizing j0 ss with
  | zero => exact absurd h (by simp [waitEvents])
  | succ fuel ih =>
    rw [waitEvents] at h
    by_cases hc : nextT ≤ clock j0
    · rw [if_pos hc] at h
      simp only [Option.some.injEq, Prod.mk.injEq] at h
      obtain ⟨rfl, rfl⟩ := h
      exact ⟨hc, fun i h1 h2 => absurd (lt_of_le_of_lt h1 h2) (lt_irrefl _), by simp, le_rfl⟩
    · rw [if_neg hc] at h
      cases hrec : waitEvents clock nextT fuel (j0 + 1) with
      | none => rw [hrec] at h; exact absurd h (by simp)
      | some p =>
        obtain ⟨j', ss'⟩ := p
        rw [hrec] at h
        simp only [Option.some.injEq, Prod.mk.injEq] at h
        obtain ⟨rfl, rfl⟩ := h
        obtain ⟨h1, h2, h3, h4⟩ := ih (j0 + 1) ss' hrec
        refine ⟨h1, ?_, ?_, by omega⟩
        · intro i hi1 hi2
          rcases Nat.eq_or_lt_of_le hi1 with rfl | hgt
          · exact lt_of_not_le hc
          · exact h2 i hgt hi2
        · rw [h3]
          rw [show j' - j0 = (j' - (j0 + 1)) + 1 by omega, List.replicate_succ]

/-- Witness for C7: constant clock 0 and deadline 0, the loop exits at the
first check. -/
theorem busy_wait_exit_witness :
    (0 : ℚ) ≤ (fun _ => (0 : ℚ)) 0 ∧
    (∀ i, 0 ≤ i → i < 0 → (fun _ => (0 : ℚ)) i < 0) ∧
    ([] : List ℚ) = List.replicate (0 - 0) (0.0002 : ℚ) ∧ 0 ≤ 0 :=
  busy_wait_exit (fun _ => 0) 0 1 0 0 [] (by decide)

/-! ### The process lifecycle as a trace of I/O events -/

/-- One observable I/O action of the process. -/
inductive Ev
  /-- The `os.path.exists(path)` check, returning `r`. -/
  | checkExists (r : Bool)
  /-- The `open(path, "a", buffering=1, encoding="utf-8", newline="\n")` call;
  `ok = false` when the call raises `OSError`. -/
  | openCall (ok : Bool)
  /-- One `f.write(s)` call carrying the complete string `s`. -/
  | write (s : List Char)
  /-- One `f.flush()` call. -/
  | flushCall
  /-- One `f.close()` call. -/
  | closeCall
  /-- A seek call: in the alphabet, never issued by the program. -/
  | seekCall
  /-- A truncate call: in the alphabet, never issued by the program. -/
  | truncateCall
  deriving DecidableEq

/-- How a run terminates. The loop is `while True`, so a run ends only by
`KeyboardInterrupt` (modelled at a cycle boundary), by a record-write call
raising `OSError`, or because the initial `open` raised. -/
inductive Outcome
  /-- The `open` call raised: `main` never enters the `try` block. -/
  | openFailure
  /-- A `KeyboardInterrupt` after `k` complete write+flush cycles. -/
  | interrupted (k : ℕ)
  /-- The write call for record `k` raised, after `k` complete cycles. -/
  | writeFailed (k : ℕ)
  deriving DecidableEq

/-- The header line `"index,timestamp_micros,sine,cosine\n"`. -/
def headerNL : List Char := "index,timestamp_micros,sine,cosine\n".toList

/-- The header without its newline. -/
def headerBody : List Char := "index,timestamp_micros,sine,cosine".toList

/-- The line of record `i`, given the environment: `tsf i` is the
`now_us()` wall-clock reading taken while composing record `i`, and
`sq i` / `cq i` are the exact rational values of the sine/cosine doubles
computed for it. The index written is `indexAt i`. -/
def recordLine (tsf : ℕ → ℤ) (sq cq : ℕ → ℚ) (i : ℕ) : List Char :=
  dataLine (indexAt i) (tsf i) (sq i) (cq i)

/-- The events of `k` loop cycles starting at record number `s`: each cycle
composes its line fully in memory, writes it with one `write` call, then
issues one `flush`. -/
def bodyEvents (tsf : ℕ → ℤ) (sq cq : ℕ → ℚ) (s : ℕ) : ℕ → List Ev
  | 0 => []
  | k + 1 =>
    .write (recordLine tsf sq cq s) :: .flushCall ::
      bodyEvents tsf sq cq (s + 1) k

/-- The complete I/O trace of one run. `pe` is the result of the
`os.path.exists` check, performed before (not atomically with) the `open`;
the header is written iff `pe = false`; the `finally` block then flushes
and closes on every path on which the `open` succeeded (assuming the final
flush call itself returns). -/
def runEvents (tsf : ℕ → ℤ) (sq cq : ℕ → ℚ) (pe : Bool) : Outcome → List Ev
  | .openFailure => [.checkExists pe, .openCall false]
  | .interrupted k =>
    .checkExists pe :: .openCall true ::
      ((if pe then [] else [.write headerNL]) ++
        (bodyEvents tsf sq cq 0 k ++ [.flushCall, .closeCall]))
  | .writeFailed k =>
    .checkExists pe :: .openCall true ::
      ((if pe then [] else [.write headerNL]) ++
        (bodyEvents tsf sq cq 0 k ++
          (.write (recordLine tsf sq cq k) :: [.flushCall, .closeCall])))

/-- The payloads of the `write` calls of a trace, in order. -/
def writesList (tr : List Ev) : List (List Char) :=
  tr.filterMap fun e => match e with
    | .write s => some s
    | _ => none

/-- The bytes appended to the file by a trace: the concatenation of all
write payloads (the file is in append mode and never repositioned). -/
def writtenBytes : List Ev → List Char
  | [] => []
  | .write s :: tr => s ++ writtenBytes tr
  | _ :: tr => writtenBytes tr

/-- The final file content: the prior content (empty when the path did not
exist at start) followed by everything this run wrote. -/
def fileAfter (old : List Char) (tr : List Ev) : List Char :=
  old ++ writtenBytes tr

/-- The concatenation of the record lines `s, s+1, …, s+k-1`. -/
def recordsBytes (tsf : ℕ → ℤ) (sq cq : ℕ → ℚ) (s : ℕ) : ℕ → List Char
  | 0 => []
  | k + 1 => recordLine tsf sq cq s ++ recordsBytes tsf sq cq (s + 1) k

/-- The first line of a byte sequence: everything before the first `\n`. -/
def firstLine (l : List Char) : List Char :=
  l.takeWhile fun c => c != '\n'

/-! ### Trace lemmas -/

theorem writtenBytes_append (a b : List Ev) :
    writtenBytes (a ++ b) = writtenBytes a ++ writtenBytes b := by
  induction a with
  | nil => rfl
  | cons e a ih => cases e <;> simp [writtenBytes, ih]

theorem writtenBytes_body (tsf : ℕ → ℤ) (sq cq : ℕ → ℚ) (s k : ℕ) :
    writtenBytes (bodyEvents tsf sq cq s k) = recordsBytes tsf sq cq s k := by
  induction k generalizing s with
  | zero => rfl
  | succ k ih => simp [bodyEvents, recordsBytes, writtenBytes, ih]

theorem writesList_body (tsf : ℕ → ℤ) (sq cq : ℕ → ℚ) (s k : ℕ) :
    writesList (bodyEvents tsf sq cq s k)
      = (List.range' s k).map (recordLine tsf sq cq) := by
  induction k generalizing s with
  | zero => rfl
  | succ k ih =>
    rw [List.range'_succ, List.map_cons, ← ih (s + 1)]
    simp [bodyEvents, writesList, List.filterMap_cons]

theorem bodyEvents_mem (tsf : ℕ → ℤ) (sq cq : ℕ → ℚ) (s k : ℕ) :
    ∀ e ∈ bodyEvents tsf sq cq s k,
      (∃ i, s ≤ i ∧ i < s + k ∧ e = .write (recordLine tsf sq cq i)) ∨
        e = Ev.flushCall := by
  induction k generalizing s with
  | zero => simp [bodyEvents]
  | succ k ih =>
    intro e he
    simp only [bodyEvents, List.mem_cons] at he
    rcases he with rfl | rfl | he
    · exact Or.inl ⟨s, le_rfl, by omega, rfl⟩
    · exact Or.inr rfl
    · rcases ih (s + 1) e he with ⟨i, h1, h2, h3⟩ | hf
      · exact Or.inl ⟨i, by omega, by omega, h3⟩
      · exact Or.inr hf

theorem bodyEvents_count_eq_zero (tsf : ℕ → ℤ) (sq cq : ℕ → ℚ) (s k : ℕ)
    (e : Ev) (hw : ∀ x, e ≠ .write x) (hf : e ≠ Ev.flushCall) :
    (bodyEvents tsf sq cq s k).count e = 0 := by
  rw [List.count_eq_zero]
  intro he
  rcases bodyEvents_mem tsf sq cq s k e he with ⟨i, _, _, h3⟩ | h
  · exact hw _ h3
  · exact hf h

theorem takeWhile_append_stop {p : Char → Bool} (l1 : List Char) (c : Char)
    (l2 : List Char) (h1 : ∀ x ∈ l1, p x = true) (h2 : p c = false) :
    (l1 ++ c :: l2).takeWhile p = l1 := by
  induction l1 with
  | nil => simp [List.takeWhile_cons, h2]
  | cons a l1 ih =>
    simp only [List.cons_append, List.takeWhile_cons,
      h1 a (List.mem_cons_self a l1), if_true]
    rw [ih fun x hx => h1 x (List.mem_cons_of_mem a hx)]

theorem natDigits_head_not_header (m : ℕ) (rest : List Char) :
    natDigits m ++ rest ≠ headerNL := by
  obtain ⟨d, ds, hds⟩ := List.exists_cons_of_ne_nil (natDigits_ne_nil m)
  intro h
  rw [hds, List.cons_append] at h
  have hd : d.isDigit = true :=
    natDigits_all_digit m d (hds ▸ List.mem_cons_self d ds)
  have : d = 'i' := by
    have := congrArg List.head? h
    simpa [headerNL] using this
  rw [this] at hd
  simp at hd

/-- No record line is the header line: a record line starts with a decimal
digit, the header starts with `'i'`. -/
theorem recordLine_ne_header (tsf : ℕ → ℤ) (sq cq : ℕ → ℚ) (i : ℕ) :
    recordLine tsf sq cq i ≠ headerNL := by
  unfold recordLine dataLine dataLineBody
  simp only [List.append_assoc, List.cons_append]
  exact natDigits_head_not_header _ _

@[simp] theorem writesList_nil : writesList [] = [] := rfl

@[simp] theorem writesList_cons_write (s : List Char) (tr : List Ev) :
    writesList (.write s :: tr) = s :: writesList tr := rfl

@[simp] theorem writesList_cons_check (r : Bool) (tr : List Ev) :
    writesList (.checkExists r :: tr) = writesList tr := rfl

@[simp] theorem writesList_cons_open (b : Bool) (tr : List Ev) :
    writesList (.openCall b :: tr) = writesList tr := rfl

@[simp] theorem writesList_cons_flush (tr : List Ev) :
    writesList (.flushCall :: tr) = writesList tr := rfl

@[simp] theorem writesList_cons_close (tr : List Ev) :
    writesList (.closeCall :: tr) = writesList tr := rfl

@[simp] theorem writesList_append (a b : List Ev) :
    writesList (a ++ b) = writesList a ++ writesList b :=
  List.filterMap_append _ _ _

theorem writtenBytes_run_interrupted (tsf : ℕ → ℤ) (sq cq : ℕ → ℚ)
    (pe : Bool) (k : ℕ) :
    writtenBytes (runEvents tsf sq cq pe (.interrupted k))
      = (if pe then [] else headerNL) ++ recordsBytes tsf sq cq 0 k := by
  cases pe <;>
    simp [runEvents, writtenBytes, writtenBytes_append, writtenBytes_body]

theorem writesList_run_interrupted (tsf : ℕ → ℤ) (sq cq : ℕ → ℚ)
    (pe : Bool) (k : ℕ) :
    writesList (runEvents tsf sq cq pe (.interrupted k))
      = (if pe then [] else [headerNL]) ++
        (List.range' 0 k).map (recordLine tsf sq cq) := by
  cases pe <;> simp [runEvents, writesList_body]

theorem headerNL_eq : headerNL = headerBody ++ ['\n'] := rfl

/-- C2: on a fresh path the bytes this run writes are exactly the header
line followed by the record lines — so the first line of the resulting
file is exactly `index,timestamp_micros,sine,cosine`, written before any
record — while on a pre-existing path no header is among the writes and
the record bytes are appended directly after the existing content. -/
theorem header_exactly_on_fresh_path (tsf : ℕ → ℤ) (sq cq : ℕ → ℚ) (k : ℕ)
    (old : List Char) :
    writtenBytes (runEvents tsf sq cq false (.interrupted k))
      = headerNL ++ recordsBytes tsf sq cq 0 k ∧
    firstLine (fileAfter [] (runEvents tsf sq cq false (.interrupted k)))
      = headerBody ∧
    fileAfter old (runEvents tsf sq cq true (.interrupted k))
      = old ++ recordsBytes tsf sq cq 0 k ∧
    (∀ s, Ev.write s ∈ runEvents tsf sq cq true (.interrupted k) →
      s ≠ headerNL) := by
  refine ⟨by simpa using writtenBytes_run_interrupted tsf sq cq false k,
    ?_, ?_, ?_⟩
  · rw [fileAfter, List.nil_append, writtenBytes_run_interrupted]
    simp only [Bool.false_eq_true, if_false, headerNL_eq, List.append_assoc,
      List.cons_append, List.nil_append]
    exact takeWhile_append_stop _ _ _ (by decide) (by decide)
  · rw [fileAfter, writtenBytes_run_interrupted]
    simp
  · intro s hs
    simp only [runEvents, if_true, List.nil_append, List.mem_cons,
      List.mem_append] at hs
    rcases hs with h | h | h | h
    · cases h
    · cases h
    · rcases bodyEvents_mem tsf sq cq 0 k _ h with ⟨i, _, _, h3⟩ | h3
      · obtain rfl : s = recordLine tsf sq cq i := by
          injection h3
        exact recordLine_ne_header tsf sq cq i
      · cases h3
    · simp at h

/-- C10: the header decision depends only on the existence check, never on
file content — for a pre-existing empty file the run writes only data
lines and no header; the header is among the write calls exactly when the
existence check returned `false`; and the existence check is issued
strictly before (not atomically with) the open call. -/
theorem header_decided_by_existence_only (tsf : ℕ → ℤ) (sq cq : ℕ → ℚ)
    (k : ℕ) :
    fileAfter [] (runEvents tsf sq cq true (.interrupted k))
      = recordsBytes tsf sq cq 0 k ∧
    (∀ pe : Bool,
      headerNL ∈ writesList (runEvents tsf sq cq pe (.interrupted k)) ↔
        pe = false) ∧
    (∀ pe : Bool,
      (runEvents tsf sq cq pe (.interrupted k))[0]?
          = some (.checkExists pe) ∧
        (runEvents tsf sq cq pe (.interrupted k))[1]?
          = some (.openCall true)) := by
  refine ⟨?_, ?_, ?_⟩
  · rw [fileAfter, writtenBytes_run_interrupted]
    simp
  · intro pe
    rw [writesList_run_interrupted]
    cases pe
    · simp
    · simp only [if_true, List.nil_append, List.mem_map]
      constructor
      · rintro ⟨i, _, hi⟩
        exact absurd hi (recordLine_ne_header tsf sq cq i)
      · intro h
        cases h
  · intro pe
    cases pe <;> simp [runEvents]

theorem body_tail_write_flush (tsf : ℕ → ℤ) (sq cq : ℕ → ℚ) (s k j : ℕ)
    (x : List Char)
    (h : (bodyEvents tsf sq cq s k ++ [Ev.flushCall, Ev.closeCall])[j]?
      = some (.write x)) :
    (bodyEvents tsf sq cq s k ++ [Ev.flushCall, Ev.closeCall])[j + 1]?
      = some Ev.flushCall := by
  induction k generalizing s j with
  | zero => rcases j with _ | _ | j <;> simp_all [bodyEvents]
  | succ k ih =>
    rcases j with _ | _ | j
    · simp [bodyEvents]
    · simp [bodyEvents] at h
    · simp only [bodyEvents, List.cons_append, List.getElem?_cons_succ] at h ⊢
      exact ih (s + 1) j h

theorem run_write_then_flush (tsf : ℕ → ℤ) (sq cq : ℕ → ℚ) (pe : Bool)
    (k j i : ℕ)
    (h : (runEvents tsf sq cq pe (.interrupted k))[j]?
      = some (.write (recordLine tsf sq cq i))) :
    (runEvents tsf sq cq pe (.interrupted k))[j + 1]? = some Ev.flushCall := by
  cases pe
  · rcases j with _ | _ | _ | j
    · simp [runEvents] at h
    · simp [runEvents] at h
    · simp only [runEvents, Bool.false_eq_true, if_false, List.singleton_append,
        List.cons_append, List.getElem?_cons_succ, List.getElem?_cons_zero,
        Option.some.injEq, Ev.write.injEq] at h
      exact absurd h.symm (recordLine_ne_header tsf sq cq i)
    · simp only [runEvents, Bool.false_eq_true, if_false, List.singleton_append,
        List.cons_append, List.getElem?_cons_succ] at h ⊢
      exact body_tail_write_flush tsf sq cq 0 k j _ h
  · rcases j with _ | _ | j
    · simp [runEvents] at h
    · simp [runEvents] at h
    · simp only [runEvents, if_true, List.nil_append,
        List.getElem?_cons_succ] at h ⊢
      exact body_tail_write_flush tsf sq cq 0 k j _ h

/-- C5: every record line is composed fully in memory and emitted with
exactly one `write` call — the run's write calls are exactly the optional
header followed by the record lines in order, one call per record — and
every record write is immediately followed by one `flush` call before
control returns to the scheduler; records are never batched between
flushes. -/
theorem record_write_single_and_flushed (tsf : ℕ → ℤ) (sq cq : ℕ → ℚ)
    (pe : Bool) (k j i : ℕ)
    (h : (runEvents tsf sq cq pe (.interrupted k))[j]?
      = some (.write (recordLine tsf sq cq i))) :
    (runEvents tsf sq cq pe (.interrupted k))[j + 1]? = some Ev.flushCall ∧
    writesList (runEvents tsf sq cq pe (.interrupted k))
      = (if pe then [] else [headerNL]) ++
        (List.range k).map (recordLine tsf sq cq) := by
  refine ⟨run_write_then_flush tsf sq cq pe k j i h, ?_⟩
  rw [List.range_eq_range']
  exact writesList_run_interrupted tsf sq cq pe k

/-- Witness for C5: a fresh-path run interrupted after one record; the
record write sits at position 3 of the trace and position 4 is its flush. -/
theorem record_write_single_and_flushed_witness :
    (runEvents (fun _ => 0) (fun _ => 0) (fun _ => 0) false
        (.interrupted 1))[3 + 1]? = some Ev.flushCall ∧
    writesList (runEvents (fun _ => 0) (fun _ => 0) (fun _ => 0) false
        (.interrupted 1))
      = (if false then [] else [headerNL]) ++
        (List.range 1).map (recordLine (fun _ => 0) (fun _ => 0) (fun _ => 0)) :=
  record_write_single_and_flushed (fun _ => 0) (fun _ => 0) (fun _ => 0)
    false 1 3 0 rfl

/-- C8: on every termination path on which the open succeeded —
interruption or a failing record write (the loop itself never completes
normally) — the trace ends with a final flush followed by the close; the
file is opened exactly once, closed exactly once, and never reopened,
seeked or truncated. -/
theorem final_flush_close_once (tsf : ℕ → ℤ) (sq cq : ℕ → ℚ) (pe : Bool)
    (out : Outcome) (h : out ≠ Outcome.openFailure) :
    (∃ pre, runEvents tsf sq cq pe out = pre ++ [Ev.flushCall, Ev.closeCall]) ∧
    (runEvents tsf sq cq pe out).count (Ev.openCall true) = 1 ∧
    (runEvents tsf sq cq pe out).count (Ev.openCall false) = 0 ∧
    (runEvents tsf sq cq pe out).count Ev.closeCall = 1 ∧
    (runEvents tsf sq cq pe out).count Ev.seekCall = 0 ∧
    (runEvents tsf sq cq pe out).count Ev.truncateCall = 0 := by
  have hb : ∀ e : Ev, (∀ x, e ≠ Ev.write x) → e ≠ Ev.flushCall →
      ∀ s' k', (bodyEvents tsf sq cq s' k').count e = 0 :=
    fun e hw hf s' k' => bodyEvents_count_eq_zero tsf sq cq s' k' e hw hf
  cases out with
  | openFailure => exact absurd rfl h
  | interrupted k =>
    refine ⟨⟨.checkExists pe :: .openCall true ::
      ((if pe then [] else [.write headerNL]) ++ bodyEvents tsf sq cq 0 k),
      by simp [runEvents, List.append_assoc]⟩, ?_, ?_, ?_, ?_, ?_⟩ <;>
      cases pe <;>
        simp [runEvents, List.count_cons, List.count_append,
          hb (Ev.openCall true) (by simp) (by simp),
          hb (Ev.openCall false) (by simp) (by simp),
          hb Ev.closeCall (by simp) (by simp),
          hb Ev.seekCall (by simp) (by simp),
          hb Ev.truncateCall (by simp) (by simp)]
  | writeFailed k =>
    refine ⟨⟨.checkExists pe :: .openCall true ::
      ((if pe then [] else [.write headerNL]) ++ (bodyEvents tsf sq cq 0 k ++
        [.write (recordLine tsf sq cq k)])),
      by simp [runEvents, List.append_assoc]⟩, ?_, ?_, ?_, ?_, ?_⟩ <;>
      cases pe <;>
        simp [runEvents, List.count_cons, List.count_append,
          hb (Ev.openCall true) (by simp) (by simp),
          hb (Ev.openCall false) (by simp) (by simp),
          hb Ev.closeCall (by simp) (by simp),
          hb Ev.seekCall (by simp) (by simp),
          hb Ev.truncateCall (by simp) (by simp)]

/-- Witness for C8: a pre-existing-path run interrupted after 0 records. -/
theorem final_flush_close_once_witness :
    (∃ pre, runEvents (fun _ => 0) (fun _ => 0) (fun _ => 0) true
        (.interrupted 0) = pre ++ [Ev.flushCall, Ev.closeCall]) ∧
    (runEvents (fun _ => 0) (fun _ => 0) (fun _ => 0) true
        (.interrupted 0)).count (Ev.openCall true) = 1 ∧
    (runEvents (fun _ => 0) (fun _ => 0) (fun _ => 0) true
        (.interrupted 0)).count (Ev.openCall false) = 0 ∧
    (runEvents (fun _ => 0) (fun _ => 0) (fun _ => 0) true
        (.interrupted 0)).count Ev.closeCall = 1 ∧
    (runEvents (fun _ => 0) (fun _ => 0) (fun _ => 0) true
        (.interrupted 0)).count Ev.seekCall = 0 ∧
    (runEvents (fun _ => 0) (fun _ => 0) (fun _ => 0) true
        (.interrupted 0)).count Ev.truncateCall = 0 :=
  final_flush_close_once (fun _ => 0) (fun _ => 0) (fun _ => 0) true
    (.interrupted 0) (by simp)

/-! ### Exit codes -/

/-- The value `main` produces: `return 0` is reached after the
`KeyboardInterrupt` handler and the `finally` block; an `OSError` raised
by `open` (before the `try`) or by a record write propagates out. -/
def mainResult : Outcome → Except Unit ℕ
  | .openFailure => .error ()
  | .interrupted _ => .ok 0
  | .writeFailed _ => .error ()

/-- The process exit status: `raise SystemExit(main())` exits with `main`'s
return value; an uncaught exception terminates the process with status 1. -/
def exitCode (o : Outcome) : ℕ :=
  match mainResult o with
  | .ok n => n
  | .error _ => 1

/-- C9 as stated is false: a mid-run write failure also exits non-zero,
so a non-zero exit does not imply that the open failed. Concretely,
`writeFailed 0` exits 1. -/
theorem exit_nonzero_not_only_open_failure :
    ¬ (∀ o : Outcome, exitCode o ≠ 0 → o = Outcome.openFailure) := by
  intro h
  have := h (.writeFailed 0) (by decide)
  exact absurd this (by simp)

/-- C9 amended: the exit code is 0 on graceful interruption (interruption
takes the same final-flush-and-close path as success), and non-zero both
when the file cannot be opened for append — in which case the error
propagates before any write, so the sampling loop is never entered — and
when a write failure terminates the loop mid-run. -/
theorem exit_code_per_outcome (tsf : ℕ → ℤ) (sq cq : ℕ → ℚ) (pe : Bool) :
    (∀ k, exitCode (.interrupted k) = 0) ∧
    exitCode .openFailure ≠ 0 ∧
    (∀ k, exitCode (.writeFailed k) ≠ 0) ∧
    writesList (runEvents tsf sq cq pe .openFailure) = [] := by
  exact ⟨fun _ => rfl, by decide, fun k => by simp [exitCode, mainResult], rfl⟩

end CsvWriter
